import Mathlib

set_option maxRecDepth 100000

/-!
A shallow embedding of the dark-channel-prior defogging program (defog.c),
together with theorems checking the natural-language specification against it.

Modelling conventions: machine doubles are modelled as exact rationals, and
the C int bucket-count computation (x2 - x1) * (y2 - y1) * 0.001 truncated to
int is modelled as natural-number division by 1000, which agrees with the
double computation at every region size at issue.
-/

/-- A dense pixel grid; pix y x c mirrors cvGet2D(img, y, x).val[c]. -/
structure Image where
  width : ℕ
  height : ℕ
  pix : ℕ → ℕ → ℕ → ℚ

/-- Embeds scalar_min of defog.c: the index of the minimum among
vals 0 .. vals (num_vals - 1), earlier indices winning ties. -/
def scalar_min (vals : ℕ → ℚ) (num_vals : ℕ) : ℕ :=
  ((List.range' 1 (num_vals - 1)).foldl
    (fun acc i => if vals i < acc.1 then (vals i, i) else acc)
    (vals 0, 0)).2

/-- Row-major enumeration of a half-open region, y outer and x inner,
mirroring the nested for loops of defog.c. -/
def regionPts (x1 y1 x2 y2 : ℕ) : List (ℕ × ℕ) :=
  (List.range' y1 (y2 - y1)).flatMap fun y =>
    (List.range' x1 (x2 - x1)).map fun x => (x, y)

/-- The minimum over the three channel values of one pixel. -/
def pixelMin (img : Image) (x y : ℕ) : ℚ :=
  min (img.pix y x 0) (min (img.pix y x 1) (img.pix y x 2))

/-- One iteration of the find_dark_channel scan: keep the pixel whose minimum
channel value is smallest, a strictly smaller value winning. -/
def dcStep (img : Image) (acc : (ℕ → ℚ) × ℕ) (p : ℕ × ℕ) : (ℕ → ℚ) × ℕ :=
  let curr_pixel := img.pix p.2 p.1
  let curr_min := scalar_min curr_pixel 3
  if curr_pixel curr_min < acc.1 acc.2 then (curr_pixel, curr_min) else acc

/-- The (min_pixel, min) state at the end of find_dark_channel's loops. -/
def darkChannelState (img : Image) (x1 y1 x2 y2 : ℕ) : (ℕ → ℚ) × ℕ :=
  (regionPts x1 y1 x2 y2).foldl (dcStep img)
    (img.pix y1 x1, scalar_min (img.pix y1 x1) 3)

/-- Embeds find_dark_channel of defog.c. -/
def find_dark_channel (img : Image) (x1 y1 x2 y2 : ℕ) : ℕ :=
  (darkChannelState img x1 y1 x2 y2).2

/-- Coordinate-level mirror of dcStep, tracking which pixel currently wins. -/
def traceStep (img : Image) (acc p : ℕ × ℕ) : ℕ × ℕ :=
  if pixelMin img p.1 p.2 < pixelMin img acc.1 acc.2 then p else acc

/-- The coordinates of the pixel whose minimum channel find_dark_channel
returns. -/
def darkChannelTrace (img : Image) (x1 y1 x2 y2 : ℕ) : ℕ × ℕ :=
  (regionPts x1 y1 x2 y2).foldl (traceStep img) (x1, y1)

/-- Embeds channel_value_t of defog.c. -/
structure ChannelValue where
  x : ℤ
  y : ℤ
  val : ℚ
  intensity : ℚ
deriving DecidableEq

/-- The bucket-replacement test of find_light_intensity, read as the strict
lexicographic order on (val, intensity) pairs. -/
def lexSmaller (cv : ChannelValue) (v it : ℚ) : Prop :=
  cv.val < v ∨ (cv.val = v ∧ cv.intensity < it)

/-- Embeds the inner bucket loop of find_light_intensity: replace the first
slot whose (val, intensity) pair loses to the new pixel, then stop. -/
def insertTop : List ChannelValue → ℤ → ℤ → ℚ → ℚ → List ChannelValue
  | [], _, _, _, _ => []
  | cv :: rest, x, y, v, it =>
    if cv.val < v ∨ (cv.val = v ∧ cv.intensity < it) then
      { x := x, y := y, val := v, intensity := it } :: rest
    else
      cv :: insertTop rest x y v it

/-- Embeds int top_num = (x2 - x1) * (y2 - y1) * 0.001 of defog.c. -/
def topNum (x1 y1 x2 y2 : ℕ) : ℕ := (x2 - x1) * (y2 - y1) / 1000

/-- The freshly allocated bucket array, every slot set to the -1 sentinels. -/
def initTop (n : ℕ) : List ChannelValue :=
  List.replicate n { x := -1, y := -1, val := -1, intensity := -1 }

/-- One pixel of the region scan of find_light_intensity. -/
def scanStep (img gray : Image) (dc : ℕ) (t : List ChannelValue) (p : ℕ × ℕ) :
    List ChannelValue :=
  insertTop t (p.1 : ℤ) (p.2 : ℤ) (img.pix p.2 p.1 dc) (gray.pix p.2 p.1 0)

/-- The whole region scan of find_light_intensity. -/
def scanTop (img gray : Image) (dc : ℕ) (pts : List (ℕ × ℕ))
    (top : List ChannelValue) : List ChannelValue :=
  pts.foldl (scanStep img gray dc) top

/-- The bucket array as it stands after find_light_intensity's region scan. -/
def finalTop (img gray : Image) (x1 y1 x2 y2 : ℕ) : List ChannelValue :=
  scanTop img gray (find_dark_channel img x1 y1 x2 y2) (regionPts x1 y1 x2 y2)
    (initTop (topNum x1 y1 x2 y2))

/-- One step of the final max-intensity loop of find_light_intensity. -/
def maxStep (m : ℚ) (cv : ChannelValue) : ℚ :=
  if m < cv.intensity then cv.intensity else m

/-- The final max-intensity loop, whose running maximum starts at -1. -/
def maxIntensity (top : List ChannelValue) : ℚ :=
  top.foldl maxStep (-1)

/-- Embeds find_light_intensity of defog.c. -/
def find_light_intensity (img gray : Image) (x1 y1 x2 y2 : ℕ) : ℚ :=
  maxIntensity (finalTop img gray x1 y1 x2 y2)

/-- The window width constant MAP_WIDTH of defog.c. -/
def MAP_WIDTH : ℕ := 20

/-- Embeds v - MAP_WIDTH / 2 > 0 ? v - MAP_WIDTH / 2 : 0 from main's loop
(C int arithmetic; the guard makes truncated subtraction agree with it). -/
def lowBound (v : ℕ) : ℕ :=
  if 0 < v - MAP_WIDTH / 2 then v - MAP_WIDTH / 2 else 0

/-- Embeds v + MAP_WIDTH / 2 <= bound ? v + MAP_WIDTH / 2 : bound from
main's loop. -/
def highBound (v bound : ℕ) : ℕ :=
  if v + MAP_WIDTH / 2 ≤ bound then v + MAP_WIDTH / 2 else bound

/-- The dark channel index main computes on the clamped window of (x, y). -/
def dcIndex (img : Image) (x y : ℕ) : ℕ :=
  find_dark_channel img (lowBound x) (lowBound y)
    (highBound x img.width) (highBound y img.height)

/-- The transmission estimate t computed in main's loop body. -/
def transmission_t (img : Image) (light_intensity : ℚ) (x y : ℕ) : ℚ :=
  1 - img.pix y x (dcIndex img x y) / light_intensity

/-- The channel-0 value main stores into the transmission map at (x, y). -/
def mapPixel (img : Image) (light_intensity : ℚ) (x y : ℕ) : ℚ :=
  transmission_t img light_intensity x y * 255

/-- The recovered channel value main stores into the output image. -/
def outPixel (img : Image) (light_intensity : ℚ) (x y c : ℕ) : ℚ :=
  (img.pix y x c - light_intensity) /
    max (transmission_t img light_intensity x y) 0.54 + light_intensity

/-- Spec side, 4.2 step 1: a bucket count of floor(area times 0.001) with a
minimum of 1. -/
def spec_topNum (x1 y1 x2 y2 : ℕ) : ℕ :=
  max ((x2 - x1) * (y2 - y1) / 1000) 1

/-- Spec side, 4.4: the recovery formula, taking the transmission value read
from the transmission map as an argument, as the spec words it. -/
def spec_recover (img : Image) (t light : ℚ) (x y c : ℕ) : ℚ :=
  (img.pix y x c - light) / max t 0.54 + light

/-- A small non-uniform 2 by 2 test image. -/
def wImgA : Image := ⟨2, 2, fun y x c => ((x + 2 * y + c : ℕ) : ℚ)⟩

/-- A 1000 by 1 test image whose pixel (0, 0) is uniquely maximal. -/
def wImgB : Image := ⟨1000, 1, fun _ x _ => if x = 0 then 2 else 1⟩

/-- Grayscale companion of wImgB, uniquely brightest at (0, 0). -/
def wGrayB : Image := ⟨1000, 1, fun _ x _ => if x = 0 then 7 else 3⟩

/-- A 10 by 10 constant test image, too small for a single bucket. -/
def wImgC : Image := ⟨10, 10, fun _ _ _ => 2⟩

/-- Grayscale companion of wImgC. -/
def wGrayC : Image := ⟨10, 10, fun _ _ _ => 1⟩

/-- A 1 by 1 test image with constant channel value 300. -/
def wImgD : Image := ⟨1, 1, fun _ _ _ => 300⟩

/-- A 2 by 1 test image whose second pixel is bright off its dark channel. -/
def wImgE : Image :=
  ⟨2, 1, fun _ x c =>
    if x = 0 then (if c = 1 then 0 else 5)
    else (if c = 0 then 0 else 200)⟩

/-- A 1 by 1 test image with constant channel value 2. -/
def wImgF : Image := ⟨1, 1, fun _ _ _ => 2⟩

lemma scalar_min_three (v : ℕ → ℚ) :
    scalar_min v 3 =
      if v 1 < v 0 then (if v 2 < v 1 then 2 else 1)
      else if v 2 < v 0 then 2 else 0 := by
  have h : List.range' 1 2 = [1, 2] := rfl
  simp only [scalar_min, h, List.foldl]
  by_cases h1 : v 1 < v 0 <;> simp only [h1, if_true, if_false, reduceIte] <;>
    split <;> simp_all

lemma scalar_min_lt_three (v : ℕ → ℚ) : scalar_min v 3 < 3 := by
  rw [scalar_min_three]
  split_ifs <;> norm_num

lemma scalar_min_le (v : ℕ → ℚ) : ∀ i, i < 3 → v (scalar_min v 3) ≤ v i := by
  intro i hi
  rw [scalar_min_three]
  interval_cases i <;> split_ifs <;> linarith

lemma scalar_min_first (v : ℕ → ℚ) :
    ∀ j, j < scalar_min v 3 → v (scalar_min v 3) < v j := by
  intro j hj
  rw [scalar_min_three] at hj ⊢
  split_ifs at hj ⊢ with h1 h2 h2 <;> interval_cases j <;> linarith

lemma pix_scalar_min (img : Image) (x y : ℕ) :
    img.pix y x (scalar_min (img.pix y x) 3) = pixelMin img x y := by
  have hle := scalar_min_le (img.pix y x)
  have hlt := scalar_min_lt_three (img.pix y x)
  have h0 := hle 0 (by norm_num)
  have h1 := hle 1 (by norm_num)
  have h2 := hle 2 (by norm_num)
  unfold pixelMin
  interval_cases h : scalar_min (img.pix y x) 3 <;>
    rw [min_def, min_def] <;> split_ifs <;> linarith

lemma dcStep_val_le (img : Image) (acc : (ℕ → ℚ) × ℕ) (p : ℕ × ℕ) :
    (dcStep img acc p).1 (dcStep img acc p).2 ≤ acc.1 acc.2 := by
  unfold dcStep
  dsimp only
  split_ifs with h
  · exact le_of_lt h
  · exact le_refl _

lemma dcStep_val_le_pix (img : Image) (acc : (ℕ → ℚ) × ℕ) (p : ℕ × ℕ) :
    (dcStep img acc p).1 (dcStep img acc p).2 ≤ pixelMin img p.1 p.2 := by
  unfold dcStep
  dsimp only
  split_ifs with h
  · exact le_of_eq (pix_scalar_min img p.1 p.2)
  · rw [pix_scalar_min] at h
    linarith [not_lt.mp h]

lemma dc_foldl_le_acc (img : Image) (l : List (ℕ × ℕ)) (acc : (ℕ → ℚ) × ℕ) :
    (l.foldl (dcStep img) acc).1 (l.foldl (dcStep img) acc).2 ≤ acc.1 acc.2 := by
  induction l generalizing acc with
  | nil => exact le_refl _
  | cons p l ih =>
      simp only [List.foldl_cons]
      exact le_trans (ih (dcStep img acc p)) (dcStep_val_le img acc p)

lemma dc_foldl_le_mem (img : Image) (l : List (ℕ × ℕ)) (acc : (ℕ → ℚ) × ℕ)
    (p : ℕ × ℕ) (hp : p ∈ l) :
    (l.foldl (dcStep img) acc).1 (l.foldl (dcStep img) acc).2 ≤
      pixelMin img p.1 p.2 := by
  induction l generalizing acc with
  | nil => cases hp
  | cons q l ih =>
      simp only [List.foldl_cons]
      rcases List.mem_cons.mp hp with h | h
      · subst h
        exact le_trans (dc_foldl_le_acc img l (dcStep img acc p))
          (dcStep_val_le_pix img acc p)
      · exact ih (dcStep img acc q) h

lemma regionPts_cons (x1 y1 x2 y2 : ℕ) (hx : x1 < x2) (hy : y1 < y2) :
    ∃ rest, regionPts x1 y1 x2 y2 = (x1, y1) :: rest := by
  unfold regionPts
  obtain ⟨m, hm⟩ : ∃ m, y2 - y1 = m + 1 := ⟨y2 - y1 - 1, by omega⟩
  obtain ⟨n, hn⟩ : ∃ n, x2 - x1 = n + 1 := ⟨x2 - x1 - 1, by omega⟩
  rw [hm, hn, List.range'_succ, List.range'_succ]
  exact ⟨_, rfl⟩

/-- C3: for every non-empty region, find_dark_channel returns a channel index
such that the winning pixel's value on that index is at most the
minimum-over-channels value of every pixel in the region. -/
theorem C3_dark_channel_minimal (img : Image) (x1 y1 x2 y2 : ℕ)
    (_hx : x1 < x2) (_hy : y1 < y2) :
    ∀ p ∈ regionPts x1 y1 x2 y2,
      (darkChannelState img x1 y1 x2 y2).1 (find_dark_channel img x1 y1 x2 y2) ≤
        pixelMin img p.1 p.2 := by
  intro p hp
  exact dc_foldl_le_mem img (regionPts x1 y1 x2 y2) _ p hp

theorem C3_witness :
    0 < 2 ∧ ((1, 1) ∈ regionPts 0 0 2 2 ∧
      (darkChannelState wImgA 0 0 2 2).1 (find_dark_channel wImgA 0 0 2 2) ≤
        pixelMin wImgA 1 1) :=
  ⟨by norm_num,
   by decide,
   C3_dark_channel_minimal wImgA 0 0 2 2 (by norm_num) (by norm_num) (1, 1)
     (by decide)⟩

lemma dcStep_traceStep (img : Image) (q p : ℕ × ℕ) :
    dcStep img (img.pix q.2 q.1, scalar_min (img.pix q.2 q.1) 3) p =
      (img.pix (traceStep img q p).2 (traceStep img q p).1,
       scalar_min (img.pix (traceStep img q p).2 (traceStep img q p).1) 3) := by
  unfold dcStep traceStep
  dsimp only
  rw [pix_scalar_min]
  by_cases h : pixelMin img p.1 p.2 < pixelMin img q.1 q.2
  · rw [if_pos h, if_pos (show pixelMin img p.1 p.2 <
      (img.pix q.2 q.1, scalar_min (img.pix q.2 q.1) 3).1
        (img.pix q.2 q.1, scalar_min (img.pix q.2 q.1) 3).2 from by
          rw [show (img.pix q.2 q.1, scalar_min (img.pix q.2 q.1) 3).1
            (img.pix q.2 q.1, scalar_min (img.pix q.2 q.1) 3).2 =
              img.pix q.2 q.1 (scalar_min (img.pix q.2 q.1) 3) from rfl,
            pix_scalar_min]
          exact h)]
  · rw [if_neg (show ¬ pixelMin img p.1 p.2 <
      (img.pix q.2 q.1, scalar_min (img.pix q.2 q.1) 3).1
        (img.pix q.2 q.1, scalar_min (img.pix q.2 q.1) 3).2 from by
          rw [show (img.pix q.2 q.1, scalar_min (img.pix q.2 q.1) 3).1
            (img.pix q.2 q.1, scalar_min (img.pix q.2 q.1) 3).2 =
              img.pix q.2 q.1 (scalar_min (img.pix q.2 q.1) 3) from rfl,
            pix_scalar_min]
          exact h), if_neg h]

lemma dc_foldl_trace (img : Image) (l : List (ℕ × ℕ)) (q : ℕ × ℕ) :
    l.foldl (dcStep img) (img.pix q.2 q.1, scalar_min (img.pix q.2 q.1) 3) =
      (img.pix (l.foldl (traceStep img) q).2 (l.foldl (traceStep img) q).1,
       scalar_min
         (img.pix (l.foldl (traceStep img) q).2 (l.foldl (traceStep img) q).1)
         3) := by
  induction l generalizing q with
  | nil => rfl
  | cons p l ih =>
      simp only [List.foldl_cons]
      rw [dcStep_traceStep img q p]
      exact ih (traceStep img q p)

lemma trace_first_min (img : Image) (l : List (ℕ × ℕ)) (a0 : ℕ × ℕ) :
    (l.foldl (traceStep img) a0 = a0 ∧
      ∀ p ∈ l, pixelMin img a0.1 a0.2 ≤ pixelMin img p.1 p.2) ∨
    (∃ l₁ l₂, l = l₁ ++ l.foldl (traceStep img) a0 :: l₂ ∧
      pixelMin img (l.foldl (traceStep img) a0).1
          (l.foldl (traceStep img) a0).2 < pixelMin img a0.1 a0.2 ∧
      (∀ p ∈ l₁, pixelMin img (l.foldl (traceStep img) a0).1
          (l.foldl (traceStep img) a0).2 < pixelMin img p.1 p.2) ∧
      (∀ p ∈ l₂, pixelMin img (l.foldl (traceStep img) a0).1
          (l.foldl (traceStep img) a0).2 ≤ pixelMin img p.1 p.2)) := by
  induction l generalizing a0 with
  | nil => exact Or.inl ⟨rfl, by simp⟩
  | cons p l ih =>
      simp only [List.foldl_cons]
      by_cases h : pixelMin img p.1 p.2 < pixelMin img a0.1 a0.2
      · rw [show traceStep img a0 p = p from by unfold traceStep; rw [if_pos h]]
        rcases ih p with ⟨hw, hall⟩ | ⟨l₁, l₂, hsplit, hlt, h1, h2⟩
        · refine Or.inr ⟨[], l, ?_, ?_, by simp, ?_⟩
          · rw [hw]
            simp
          · rw [hw]
            exact h
          · rw [hw]
            exact hall
        · refine Or.inr ⟨p :: l₁, l₂, ?_, lt_trans hlt h, ?_, h2⟩
          · rw [List.cons_append, ← hsplit]
          · intro q hq
            rcases List.mem_cons.mp hq with hq | hq
            · subst hq
              exact hlt
            · exact h1 q hq
      · rw [show traceStep img a0 p = a0 from by unfold traceStep; rw [if_neg h]]
        rcases ih a0 with ⟨hw, hall⟩ | ⟨l₁, l₂, hsplit, hlt, h1, h2⟩
        · refine Or.inl ⟨hw, ?_⟩
          intro q hq
          rcases List.mem_cons.mp hq with hq | hq
          · subst hq
            exact not_lt.mp h
          · exact hall q hq
        · refine Or.inr ⟨p :: l₁, l₂, ?_, hlt, ?_, h2⟩
          · rw [List.cons_append, ← hsplit]
          · intro q hq
            rcases List.mem_cons.mp hq with hq | hq
            · subst hq
              exact lt_of_lt_of_le hlt (not_lt.mp h)
            · exact h1 q hq

lemma scalar_min_uniform (v : ℕ → ℚ) (h1 : ¬ v 1 < v 0) (h2 : ¬ v 2 < v 0) :
    scalar_min v 3 = 0 := by
  rw [scalar_min_three, if_neg h1, if_neg h2]

/-- C8: find_dark_channel is deterministic with source-defined tie-breaking.
Within one pixel, scalar_min returns the first index attaining the channel
minimum; across the region, the winning pixel (darkChannelTrace) is the first
pixel in row-major scan order attaining the regional minimum, and the
returned index is that pixel's scalar_min; on a region of uniform pixel value
the returned index is the fixed index 0. -/
theorem C8_tie_breaking (img : Image) (x1 y1 x2 y2 : ℕ)
    (hx : x1 < x2) (hy : y1 < y2) :
    (∀ v : ℕ → ℚ, scalar_min v 3 < 3 ∧
      (∀ i, i < 3 → v (scalar_min v 3) ≤ v i) ∧
      (∀ j, j < scalar_min v 3 → v (scalar_min v 3) < v j)) ∧
    find_dark_channel img x1 y1 x2 y2 =
      scalar_min (img.pix (darkChannelTrace img x1 y1 x2 y2).2
        (darkChannelTrace img x1 y1 x2 y2).1) 3 ∧
    (∃ l₁ l₂, regionPts x1 y1 x2 y2 =
        l₁ ++ darkChannelTrace img x1 y1 x2 y2 :: l₂ ∧
      (∀ p ∈ l₁, pixelMin img (darkChannelTrace img x1 y1 x2 y2).1
        (darkChannelTrace img x1 y1 x2 y2).2 < pixelMin img p.1 p.2) ∧
      (∀ p ∈ l₂, pixelMin img (darkChannelTrace img x1 y1 x2 y2).1
        (darkChannelTrace img x1 y1 x2 y2).2 ≤ pixelMin img p.1 p.2)) ∧
    (∀ q0 : ℚ,
      (∀ p ∈ regionPts x1 y1 x2 y2, ∀ c, c < 3 → img.pix p.2 p.1 c = q0) →
      find_dark_channel img x1 y1 x2 y2 = 0) := by
  have hidx : find_dark_channel img x1 y1 x2 y2 =
      scalar_min (img.pix (darkChannelTrace img x1 y1 x2 y2).2
        (darkChannelTrace img x1 y1 x2 y2).1) 3 :=
    congrArg Prod.snd (dc_foldl_trace img (regionPts x1 y1 x2 y2) (x1, y1))
  have hsplit : ∃ l₁ l₂, regionPts x1 y1 x2 y2 =
      l₁ ++ darkChannelTrace img x1 y1 x2 y2 :: l₂ ∧
      (∀ p ∈ l₁, pixelMin img (darkChannelTrace img x1 y1 x2 y2).1
        (darkChannelTrace img x1 y1 x2 y2).2 < pixelMin img p.1 p.2) ∧
      (∀ p ∈ l₂, pixelMin img (darkChannelTrace img x1 y1 x2 y2).1
        (darkChannelTrace img x1 y1 x2 y2).2 ≤ pixelMin img p.1 p.2) := by
    rcases trace_first_min img (regionPts x1 y1 x2 y2) (x1, y1) with
      ⟨hw, hall⟩ | ⟨l₁, l₂, hs, hlt, h1, h2⟩
    · obtain ⟨rest, hcons⟩ := regionPts_cons x1 y1 x2 y2 hx hy
      refine ⟨[], rest, ?_, by simp, ?_⟩
      · rw [show darkChannelTrace img x1 y1 x2 y2 = (x1, y1) from hw, hcons]
        simp
      · intro p hp
        rw [show darkChannelTrace img x1 y1 x2 y2 = (x1, y1) from hw]
        exact hall p (by rw [hcons]; exact List.mem_cons_of_mem _ hp)
    · exact ⟨l₁, l₂, hs, h1, h2⟩
  refine ⟨fun v => ⟨scalar_min_lt_three v, scalar_min_le v, scalar_min_first v⟩,
    hidx, hsplit, ?_⟩
  intro q0 huni
  obtain ⟨l₁, l₂, hs, _, _⟩ := hsplit
  have hwmem : darkChannelTrace img x1 y1 x2 y2 ∈ regionPts x1 y1 x2 y2 := by
    rw [hs]
    exact List.mem_append_right l₁ (List.mem_cons_self _ _)
  have hc := huni (darkChannelTrace img x1 y1 x2 y2) hwmem
  rw [hidx]
  apply scalar_min_uniform
  · rw [hc 1 (by norm_num), hc 0 (by norm_num)]
    exact lt_irrefl q0
  · rw [hc 2 (by norm_num), hc 0 (by norm_num)]
    exact lt_irrefl q0

theorem C8_witness :
    0 < 2 ∧ find_dark_channel wImgA 0 0 2 2 =
      scalar_min (wImgA.pix (darkChannelTrace wImgA 0 0 2 2).2
        (darkChannelTrace wImgA 0 0 2 2).1) 3 :=
  ⟨by norm_num,
   (C8_tie_breaking wImgA 0 0 2 2 (by norm_num) (by norm_num)).2.1⟩

/-- C6: for every pixel of the image, the transmission-map window bounds are
the half-width-10 window clamped to the image, the clamped window is
non-empty and in bounds, and at corner (0,0) with width and height at least
10 the window is exactly the half-open square from 0 to 10 on both axes. -/
theorem C6_window_clamped (width height x y : ℕ)
    (hx : x < width) (hy : y < height) :
    ((lowBound x : ℤ) = max ((x : ℤ) - 10) 0 ∧
     (lowBound y : ℤ) = max ((y : ℤ) - 10) 0 ∧
     (highBound x width : ℤ) = min ((x : ℤ) + 10) width ∧
     (highBound y height : ℤ) = min ((y : ℤ) + 10) height) ∧
    (lowBound x ≤ x ∧ x < highBound x width ∧ highBound x width ≤ width ∧
     lowBound y ≤ y ∧ y < highBound y height ∧ highBound y height ≤ height) ∧
    (10 ≤ width → 10 ≤ height →
      lowBound 0 = 0 ∧ highBound 0 width = 10 ∧ highBound 0 height = 10) := by
  refine ⟨⟨?_, ?_, ?_, ?_⟩, ⟨?_, ?_, ?_, ?_, ?_, ?_⟩,
    fun hw hh => ⟨?_, ?_, ?_⟩⟩ <;>
    (simp only [lowBound, highBound, MAP_WIDTH]; split_ifs <;> omega)

theorem C6_witness :
    5 < 30 ∧ 7 < 40 ∧ lowBound 5 ≤ 5 ∧ 5 < highBound 5 30 ∧
      highBound 5 30 ≤ 30 ∧ lowBound 0 = 0 ∧ highBound 0 30 = 10 :=
  ⟨by norm_num, by norm_num,
   (C6_window_clamped 30 40 5 7 (by norm_num) (by norm_num)).2.1.1,
   (C6_window_clamped 30 40 5 7 (by norm_num) (by norm_num)).2.1.2.1,
   (C6_window_clamped 30 40 5 7 (by norm_num) (by norm_num)).2.1.2.2.1,
   ((C6_window_clamped 30 40 5 7 (by norm_num) (by norm_num)).2.2
     (by norm_num) (by norm_num)).1,
   ((C6_window_clamped 30 40 5 7 (by norm_num) (by norm_num)).2.2
     (by norm_num) (by norm_num)).2.1⟩

/-- C1: the transmission estimate is t = 1 - pix(dark index)/light, stored
times 255; it is not clamped (it can be negative), and with positive light
and non-negative channel values t is at most 1. -/
theorem C1_transmission_estimate (img : Image) (light : ℚ) (x y : ℕ)
    (hl : 0 < light) (hnn : ∀ c, 0 ≤ img.pix y x c) :
    mapPixel img light x y =
      (1 - img.pix y x (dcIndex img x y) / light) * 255 ∧
    transmission_t img light x y =
      1 - img.pix y x (dcIndex img x y) / light ∧
    transmission_t img light x y ≤ 1 ∧
    (∃ im : Image, ∃ l : ℚ, 0 < l ∧ transmission_t im l 0 0 < 0) := by
  refine ⟨rfl, rfl, ?_, ?_⟩
  · unfold transmission_t
    have h : 0 ≤ img.pix y x (dcIndex img x y) / light :=
      div_nonneg (hnn _) (le_of_lt hl)
    linarith
  · refine ⟨wImgF, 1, by norm_num, ?_⟩
    have h : dcIndex wImgF 0 0 = 0 := by decide
    unfold transmission_t
    rw [h]
    norm_num [wImgF]

theorem C1_witness :
    (0 : ℚ) < 1 ∧ mapPixel wImgA 1 0 0 =
      (1 - wImgA.pix 0 0 (dcIndex wImgA 0 0) / 1) * 255 ∧
    transmission_t wImgA 1 0 0 ≤ 1 :=
  ⟨by norm_num,
   (C1_transmission_estimate wImgA 1 0 0 (by norm_num)
     (fun c => by simp [wImgA])).1,
   (C1_transmission_estimate wImgA 1 0 0 (by norm_num)
     (fun c => by simp [wImgA])).2.2.1⟩

/-- C2: the recovered value is (pix - light)/max(t, 0.54) + light, with t the
transmission stored in the map (stored value divided by 255); the output is
not clamped to the display range in either direction. -/
theorem C2_recovery_formula (img : Image) (light : ℚ) (x y c : ℕ) :
    outPixel img light x y c =
      spec_recover img (mapPixel img light x y / 255) light x y c ∧
    outPixel img light x y c =
      (img.pix y x c - light) /
        max (transmission_t img light x y) 0.54 + light ∧
    (∃ im : Image, ∃ l : ℚ, 255 < outPixel im l 0 0 0) ∧
    (∃ im : Image, ∃ l : ℚ, outPixel im l 1 0 0 < 0) := by
  refine ⟨?_, rfl, ?_, ?_⟩
  · unfold spec_recover outPixel mapPixel
    rw [mul_div_cancel_right₀ _ (show (255 : ℚ) ≠ 0 by norm_num)]
  · refine ⟨wImgD, 1, ?_⟩
    have h : dcIndex wImgD 0 0 = 0 := by decide
    unfold outPixel transmission_t
    rw [h]
    norm_num [wImgD, max_def]
  · refine ⟨wImgE, 300, ?_⟩
    have h : dcIndex wImgE 1 0 = 1 := by decide
    unfold outPixel transmission_t
    rw [h]
    norm_num [wImgE, max_def]

lemma insertTop_cons_pos (cv0 : ChannelValue) (rest : List ChannelValue)
    (x y : ℤ) (v it : ℚ) (h : lexSmaller cv0 v it) :
    insertTop (cv0 :: rest) x y v it =
      { x := x, y := y, val := v, intensity := it } :: rest := by
  unfold lexSmaller at h
  unfold insertTop
  rw [if_pos h]

lemma insertTop_cons_neg (cv0 : ChannelValue) (rest : List ChannelValue)
    (x y : ℤ) (v it : ℚ) (h : ¬ lexSmaller cv0 v it) :
    insertTop (cv0 :: rest) x y v it = cv0 :: insertTop rest x y v it := by
  unfold lexSmaller at h
  conv_lhs => unfold insertTop
  rw [if_neg h]

lemma insertTop_length (top : List ChannelValue) (x y : ℤ) (v it : ℚ) :
    (insertTop top x y v it).length = top.length := by
  induction top with
  | nil => rfl
  | cons cv0 rest ih =>
      by_cases h : lexSmaller cv0 v it
      · rw [insertTop_cons_pos cv0 rest x y v it h]
        simp
      · rw [insertTop_cons_neg cv0 rest x y v it h]
        simp [ih]

lemma mem_insertTop (top : List ChannelValue) (x y : ℤ) (v it : ℚ)
    (cv : ChannelValue) (h : cv ∈ insertTop top x y v it) :
    cv ∈ top ∨ cv = { x := x, y := y, val := v, intensity := it } := by
  induction top with
  | nil =>
      simp only [insertTop] at h
      cases h
  | cons cv0 rest ih =>
      by_cases hc : lexSmaller cv0 v it
      · rw [insertTop_cons_pos cv0 rest x y v it hc] at h
        rcases List.mem_cons.mp h with h | h
        · exact Or.inr h
        · exact Or.inl (List.mem_cons_of_mem _ h)
      · rw [insertTop_cons_neg cv0 rest x y v it hc] at h
        rcases List.mem_cons.mp h with h | h
        · exact Or.inl (h ▸ List.mem_cons_self _ _)
        · rcases ih h with h | h
          · exact Or.inl (List.mem_cons_of_mem _ h)
          · exact Or.inr h

lemma insertTop_set_first (top : List ChannelValue) (x y : ℤ) (v it : ℚ) :
    ∀ (i : ℕ) (hi : i < top.length),
      (∀ j (hj : j < i), ¬ lexSmaller (top.get ⟨j, lt_trans hj hi⟩) v it) →
      lexSmaller (top.get ⟨i, hi⟩) v it →
      insertTop top x y v it =
        top.set i { x := x, y := y, val := v, intensity := it } := by
  induction top with
  | nil =>
      intro i hi
      exact absurd hi (by simp)
  | cons cv0 rest ih =>
      intro i hi hbefore hit
      match i with
      | 0 =>
          rw [insertTop_cons_pos cv0 rest x y v it hit]
          rfl
      | i + 1 =>
          have h0 : ¬ lexSmaller cv0 v it := hbefore 0 (Nat.succ_pos i)
          have hi2 : i < rest.length := Nat.lt_of_succ_lt_succ hi
          have hrec := ih i hi2
            (fun j hj => hbefore (j + 1) (Nat.succ_lt_succ hj)) hit
          rw [insertTop_cons_neg cv0 rest x y v it h0, hrec]
          rfl

lemma insertTop_unchanged (top : List ChannelValue) (x y : ℤ) (v it : ℚ)
    (h : ∀ cv ∈ top, ¬ lexSmaller cv v it) :
    insertTop top x y v it = top := by
  induction top with
  | nil => rfl
  | cons cv0 rest ih =>
      rw [insertTop_cons_neg cv0 rest x y v it (h cv0 (List.mem_cons_self _ _)),
        ih (fun cv hcv => h cv (List.mem_cons_of_mem _ hcv))]

lemma foldMax_ge_init (l : List ChannelValue) (m0 : ℚ) :
    m0 ≤ l.foldl maxStep m0 := by
  induction l generalizing m0 with
  | nil => exact le_refl _
  | cons cv0 l ih =>
      simp only [List.foldl_cons]
      refine le_trans ?_ (ih (maxStep m0 cv0))
      unfold maxStep
      split_ifs with h
      · exact le_of_lt h
      · exact le_refl _

lemma foldMax_ge_mem (l : List ChannelValue) (m0 : ℚ) (cv : ChannelValue)
    (h : cv ∈ l) : cv.intensity ≤ l.foldl maxStep m0 := by
  induction l generalizing m0 with
  | nil => cases h
  | cons cv0 l ih =>
      simp only [List.foldl_cons]
      rcases List.mem_cons.mp h with h | h
      · subst h
        refine le_trans ?_ (foldMax_ge_init l (maxStep m0 cv))
        unfold maxStep
        split_ifs with h2
        · exact le_refl _
        · exact not_lt.mp h2
      · exact ih (maxStep m0 cv0) h

lemma foldMax_eq_init_or_mem (l : List ChannelValue) (m0 : ℚ) :
    l.foldl maxStep m0 = m0 ∨ ∃ cv ∈ l, l.foldl maxStep m0 = cv.intensity := by
  induction l generalizing m0 with
  | nil => exact Or.inl rfl
  | cons cv0 l ih =>
      simp only [List.foldl_cons]
      rcases ih (maxStep m0 cv0) with h | ⟨cv, hcv, h⟩
      · by_cases h2 : m0 < cv0.intensity
        · refine Or.inr ⟨cv0, List.mem_cons_self _ _, ?_⟩
          rw [h]
          unfold maxStep
          rw [if_pos h2]
        · refine Or.inl ?_
          rw [h]
          unfold maxStep
          rw [if_neg h2]
      · exact Or.inr ⟨cv, List.mem_cons_of_mem _ hcv, h⟩

lemma foldMax_all_le (l : List ChannelValue) (m0 : ℚ)
    (h : ∀ cv ∈ l, cv.intensity ≤ m0) : l.foldl maxStep m0 = m0 := by
  induction l with
  | nil => rfl
  | cons cv0 l ih =>
      simp only [List.foldl_cons]
      rw [show maxStep m0 cv0 = m0 from by
        unfold maxStep
        rw [if_neg (not_lt.mpr (h cv0 (List.mem_cons_self _ _)))]]
      exact ih (fun cv hcv => h cv (List.mem_cons_of_mem _ hcv))

lemma scanTop_length (img gray : Image) (dc : ℕ) (pts : List (ℕ × ℕ))
    (top : List ChannelValue) :
    (scanTop img gray dc pts top).length = top.length := by
  induction pts generalizing top with
  | nil => rfl
  | cons p pts ih =>
      show (scanTop img gray dc pts (scanStep img gray dc top p)).length = _
      rw [ih (scanStep img gray dc top p)]
      exact insertTop_length top _ _ _ _

lemma scanTop_sentinel (img gray : Image) (dc : ℕ) (pts : List (ℕ × ℕ))
    (top : List ChannelValue)
    (htop : ∀ cv ∈ top, -1 ≤ cv.intensity)
    (hgray : ∀ p ∈ pts, -1 ≤ gray.pix p.2 p.1 0) :
    ∀ cv ∈ scanTop img gray dc pts top, -1 ≤ cv.intensity := by
  induction pts generalizing top with
  | nil => exact htop
  | cons p pts ih =>
      intro cv hcv
      refine ih (scanStep img gray dc top p) ?_
        (fun q hq => hgray q (List.mem_cons_of_mem _ hq)) cv hcv
      intro cv2 hcv2
      rcases mem_insertTop top _ _ _ _ cv2 hcv2 with h | h
      · exact htop cv2 h
      · rw [h]
        exact hgray p (List.mem_cons_self _ _)

/-- C4: each scanned pixel is inserted by the first-fit replacement rule
(replace the first slot whose (val, intensity) pair is lexicographically
smaller, leave the rest untouched, change nothing when no slot qualifies),
and find_light_intensity returns the intensity of a candidate of maximum
intensity. -/
theorem C4_first_fit_selection (img gray : Image) (x1 y1 x2 y2 : ℕ)
    (htop : 1 ≤ topNum x1 y1 x2 y2)
    (hgray : ∀ x y, 0 ≤ gray.pix y x 0) :
    (∀ (top : List ChannelValue) (x y : ℤ) (v it : ℚ) (i : ℕ)
        (hi : i < top.length),
      (∀ j (hj : j < i), ¬ lexSmaller (top.get ⟨j, lt_trans hj hi⟩) v it) →
      lexSmaller (top.get ⟨i, hi⟩) v it →
      insertTop top x y v it =
        top.set i { x := x, y := y, val := v, intensity := it }) ∧
    (∀ (top : List ChannelValue) (x y : ℤ) (v it : ℚ),
      (∀ cv ∈ top, ¬ lexSmaller cv v it) → insertTop top x y v it = top) ∧
    (∃ cv ∈ finalTop img gray x1 y1 x2 y2,
      find_light_intensity img gray x1 y1 x2 y2 = cv.intensity ∧
      ∀ cv2 ∈ finalTop img gray x1 y1 x2 y2,
        cv2.intensity ≤ cv.intensity) := by
  refine ⟨fun top x y v it => insertTop_set_first top x y v it,
    fun top x y v it => insertTop_unchanged top x y v it, ?_⟩
  have hlen : (finalTop img gray x1 y1 x2 y2).length = topNum x1 y1 x2 y2 := by
    unfold finalTop
    rw [scanTop_length]
    simp [initTop]
  have hsent : ∀ cv ∈ finalTop img gray x1 y1 x2 y2, -1 ≤ cv.intensity := by
    apply scanTop_sentinel
    · intro cv hcv
      rw [initTop, List.mem_replicate] at hcv
      rw [hcv.2]
    · intro p hp
      linarith [hgray p.1 p.2]
  obtain ⟨cv0, rest, hcons⟩ :
      ∃ cv0 rest, finalTop img gray x1 y1 x2 y2 = cv0 :: rest := by
    cases hfin : finalTop img gray x1 y1 x2 y2 with
    | nil =>
        rw [hfin] at hlen
        simp at hlen
        omega
    | cons a l => exact ⟨a, l, rfl⟩
  have hfl : find_light_intensity img gray x1 y1 x2 y2 =
      (finalTop img gray x1 y1 x2 y2).foldl maxStep (-1) := rfl
  rcases foldMax_eq_init_or_mem (finalTop img gray x1 y1 x2 y2) (-1) with
    h | ⟨cv, hcv, h⟩
  · have hmem0 : cv0 ∈ finalTop img gray x1 y1 x2 y2 := by
      rw [hcons]
      exact List.mem_cons_self _ _
    have h0le : cv0.intensity ≤ -1 := by
      have := foldMax_ge_mem (finalTop img gray x1 y1 x2 y2) (-1) cv0 hmem0
      rw [h] at this
      exact this
    refine ⟨cv0, hmem0, ?_, ?_⟩
    · rw [hfl, h]
      exact (le_antisymm h0le (hsent cv0 hmem0)).symm
    · intro cv2 hcv2
      have h2 := foldMax_ge_mem (finalTop img gray x1 y1 x2 y2) (-1) cv2 hcv2
      rw [h] at h2
      linarith [hsent cv0 hmem0]
  · refine ⟨cv, hcv, by rw [hfl, h], ?_⟩
    intro cv2 hcv2
    have h2 := foldMax_ge_mem (finalTop img gray x1 y1 x2 y2) (-1) cv2 hcv2
    rw [h] at h2
    exact h2

theorem C4_witness :
    1 ≤ topNum 0 0 1000 1 ∧
    (∃ cv ∈ finalTop wImgB wGrayB 0 0 1000 1,
      find_light_intensity wImgB wGrayB 0 0 1000 1 = cv.intensity ∧
      ∀ cv2 ∈ finalTop wImgB wGrayB 0 0 1000 1,
        cv2.intensity ≤ cv.intensity) :=
  ⟨by decide,
   (C4_first_fit_selection wImgB wGrayB 0 0 1000 1 (by decide)
     (fun x y => by
       simp only [wGrayB]
       split_ifs <;> norm_num)).2.2⟩

lemma scanTop_nil_top (img gray : Image) (dc : ℕ) (pts : List (ℕ × ℕ)) :
    scanTop img gray dc pts [] = [] := by
  induction pts with
  | nil => rfl
  | cons p pts ih =>
      show scanTop img gray dc pts (scanStep img gray dc [] p) = []
      rw [show scanStep img gray dc [] p = [] from rfl]
      exact ih

/-- C7 counterexample: for the 27 by 37 region (area 999) the allocated
candidate-set size is 0, not the minimum of 1 the claim states. -/
theorem C7_counterexample :
    topNum 0 0 27 37 = 0 ∧ spec_topNum 0 0 27 37 = 1 ∧
      topNum 0 0 27 37 ≠ spec_topNum 0 0 27 37 := by decide

/-- C7 amended: the candidate set has floor(area times 0.001) slots with no
minimum applied (zero slots when the area is below 1000), and every slot is
initialized to the sentinel value -1 in all four fields. -/
theorem C7_candidate_allocation (x1 y1 x2 y2 : ℕ) :
    (initTop (topNum x1 y1 x2 y2)).length = (x2 - x1) * (y2 - y1) / 1000 ∧
    ∀ cv ∈ initTop (topNum x1 y1 x2 y2),
      cv = { x := -1, y := -1, val := -1, intensity := -1 } := by
  constructor
  · simp [initTop, topNum]
  · intro cv hcv
    rw [initTop, List.mem_replicate] at hcv
    exact hcv.2

theorem C7_witness :
    (initTop (topNum 0 0 27 37)).length = 0 ∧
      (initTop (topNum 0 0 40 25)).length = 1 :=
  ⟨(C7_candidate_allocation 0 0 27 37).1.trans (by norm_num),
   (C7_candidate_allocation 0 0 40 25).1.trans (by norm_num)⟩

/-- C5 counterexample: on a 10 by 10 image the candidate-set size computes
to zero, yet the run does not fail fatally: find_light_intensity returns -1
and main's transmission estimate is then computed with divisor -1, storing
765 into the map at (0, 0). -/
theorem C5_counterexample :
    topNum 0 0 10 10 = 0 ∧
    find_light_intensity wImgC wGrayC 0 0 10 10 = -1 ∧
    mapPixel wImgC (find_light_intensity wImgC wGrayC 0 0 10 10) 0 0 = 765 := by
  refine ⟨by decide, by decide, ?_⟩
  have h1 : find_light_intensity wImgC wGrayC 0 0 10 10 = -1 := by decide
  have h2 : dcIndex wImgC 0 0 = 0 := by decide
  rw [h1]
  unfold mapPixel transmission_t
  rw [h2]
  norm_num [wImgC]

/-- C5 amended: the code contains no such guards: when the candidate-set
size computes to zero, find_light_intensity silently returns the sentinel
-1.0 over an empty candidate set, and the recovery formula is applied
unchanged for any non-positive light intensity. -/
theorem C5_no_guard (img gray : Image) (x1 y1 x2 y2 : ℕ)
    (h : (x2 - x1) * (y2 - y1) < 1000) :
    find_light_intensity img gray x1 y1 x2 y2 = -1 ∧
    ∀ (light : ℚ) (x y c : ℕ), light ≤ 0 →
      outPixel img light x y c =
        (img.pix y x c - light) / max (transmission_t img light x y) 0.54
          + light := by
  constructor
  · have h0 : topNum x1 y1 x2 y2 = 0 := Nat.div_eq_of_lt h
    unfold find_light_intensity finalTop
    rw [h0, show initTop 0 = [] from rfl, scanTop_nil_top]
    rfl
  · intro light x y c _
    rfl

theorem C5_witness :
    (10 - 0) * (10 - 0) < 1000 ∧
      find_light_intensity wImgC wGrayC 0 0 10 10 = -1 :=
  ⟨by norm_num, (C5_no_guard wImgC wGrayC 0 0 10 10 (by norm_num)).1⟩

/-- C10: when the computed candidate-set size is zero, find_light_intensity
does not fail: the bucket array is empty, the insertion and selection loops
do no work, the sentinel -1.0 is returned, and the caller's transmission
estimate is then computed with the unchecked divisor -1, giving 1 + pix. -/
theorem C10_zero_candidates (img gray : Image) (x1 y1 x2 y2 : ℕ)
    (h : (x2 - x1) * (y2 - y1) < 1000) :
    topNum x1 y1 x2 y2 = 0 ∧
    finalTop img gray x1 y1 x2 y2 = [] ∧
    find_light_intensity img gray x1 y1 x2 y2 = -1 ∧
    ∀ x y, transmission_t img (find_light_intensity img gray x1 y1 x2 y2) x y =
      1 + img.pix y x (dcIndex img x y) := by
  have h0 : topNum x1 y1 x2 y2 = 0 := Nat.div_eq_of_lt h
  have hempty : finalTop img gray x1 y1 x2 y2 = [] := by
    unfold finalTop
    rw [h0, show initTop 0 = [] from rfl, scanTop_nil_top]
  have hval : find_light_intensity img gray x1 y1 x2 y2 = -1 := by
    unfold find_light_intensity
    rw [hempty]
    rfl
  refine ⟨h0, hempty, hval, ?_⟩
  intro x y
  rw [hval]
  unfold transmission_t
  ring

theorem C10_witness :
    (10 - 0) * (10 - 0) < 1000 ∧
      finalTop wImgC wGrayC 0 0 10 10 = [] ∧
      find_light_intensity wImgC wGrayC 0 0 10 10 = -1 :=
  ⟨by norm_num,
   (C10_zero_candidates wImgC wGrayC 0 0 10 10 (by norm_num)).2.1,
   (C10_zero_candidates wImgC wGrayC 0 0 10 10 (by norm_num)).2.2.1⟩

lemma mem_split_first {α : Type} [DecidableEq α] {a : α} :
    ∀ {l : List α}, a ∈ l → ∃ s t, l = s ++ a :: t ∧ a ∉ s := by
  intro l h
  induction l with
  | nil => cases h
  | cons b l ih =>
      by_cases hb : b = a
      · subst hb
        exact ⟨[], l, rfl, List.not_mem_nil _⟩
      · rcases List.mem_cons.mp h with h1 | h1
        · exact absurd h1.symm hb
        · obtain ⟨s, t, hst, hns⟩ := ih h1
          refine ⟨b :: s, t, by rw [hst]; rfl, ?_⟩
          intro hmem
          rcases List.mem_cons.mp hmem with h2 | h2
          · exact hb h2.symm
          · exact hns h2

lemma scanTop_phaseA (img gray : Image) (dc : ℕ) (vstar istar : ℚ)
    (pre : List (ℕ × ℕ)) :
    ∀ top : List ChannelValue,
      (∀ q ∈ pre, img.pix q.2 q.1 dc < vstar ∧ gray.pix q.2 q.1 0 ≤ istar) →
      (∀ cv ∈ top, cv.val < vstar ∧ cv.intensity ≤ istar) →
      ∀ cv ∈ scanTop img gray dc pre top,
        cv.val < vstar ∧ cv.intensity ≤ istar := by
  induction pre with
  | nil =>
      intro top _ htop
      exact htop
  | cons p pre ih =>
      intro top hpre htop
      show ∀ cv ∈ scanTop img gray dc pre (scanStep img gray dc top p), _
      refine ih (scanStep img gray dc top p)
        (fun q hq => hpre q (List.mem_cons_of_mem _ hq)) ?_
      intro cv hcv
      rcases mem_insertTop top _ _ _ _ cv hcv with h | h
      · exact htop cv h
      · rw [h]
        exact ⟨(hpre p (List.mem_cons_self _ _)).1,
          (hpre p (List.mem_cons_self _ _)).2⟩

lemma scanTop_phaseB (img gray : Image) (dc : ℕ) (star : ChannelValue)
    (post : List (ℕ × ℕ)) :
    ∀ rest : List ChannelValue,
      (∀ q ∈ post, img.pix q.2 q.1 dc ≤ star.val ∧
        (star.val = img.pix q.2 q.1 dc →
          gray.pix q.2 q.1 0 ≤ star.intensity) ∧
        gray.pix q.2 q.1 0 ≤ star.intensity) →
      (∀ cv ∈ rest, cv.intensity ≤ star.intensity) →
      ∃ rest2, scanTop img gray dc post (star :: rest) = star :: rest2 ∧
        ∀ cv ∈ rest2, cv.intensity ≤ star.intensity := by
  induction post with
  | nil =>
      intro rest _ hrest
      exact ⟨rest, rfl, hrest⟩
  | cons q post ih =>
      intro rest hpost hrest
      obtain ⟨hv, himp, hint⟩ := hpost q (List.mem_cons_self _ _)
      have hnot : ¬ lexSmaller star (img.pix q.2 q.1 dc)
          (gray.pix q.2 q.1 0) := by
        unfold lexSmaller
        push_neg
        exact ⟨hv, fun heq => himp heq⟩
      show ∃ rest2,
        scanTop img gray dc post (scanStep img gray dc (star :: rest) q) =
          star :: rest2 ∧ _
      rw [show scanStep img gray dc (star :: rest) q =
          star :: insertTop rest (q.1 : ℤ) (q.2 : ℤ) (img.pix q.2 q.1 dc)
            (gray.pix q.2 q.1 0) from by
        unfold scanStep
        exact insertTop_cons_neg star rest _ _ _ _ hnot]
      refine ih (insertTop rest (q.1 : ℤ) (q.2 : ℤ) (img.pix q.2 q.1 dc)
          (gray.pix q.2 q.1 0))
        (fun q2 hq2 => hpost q2 (List.mem_cons_of_mem _ hq2)) ?_
      intro cv hcv
      rcases mem_insertTop rest _ _ _ _ cv hcv with h | h
      · exact hrest cv h
      · rw [h]
        exact hint

/-- C9: when the candidate set has at least one slot and one pixel of the
region is both uniquely maximal in dark-channel value and uniquely brightest
in grayscale intensity, find_light_intensity returns exactly that pixel's
grayscale intensity. -/
theorem C9_unique_brightest (img gray : Image) (x1 y1 x2 y2 px py dc : ℕ)
    (hdc : dc = find_dark_channel img x1 y1 x2 y2)
    (htop : 1 ≤ topNum x1 y1 x2 y2)
    (hv : 0 ≤ img.pix py px dc)
    (hi : 0 ≤ gray.pix py px 0)
    (hmem : (px, py) ∈ regionPts x1 y1 x2 y2)
    (hmax : ∀ q ∈ regionPts x1 y1 x2 y2, q ≠ (px, py) →
      img.pix q.2 q.1 dc < img.pix py px dc ∧
      gray.pix q.2 q.1 0 < gray.pix py px 0) :
    find_light_intensity img gray x1 y1 x2 y2 = gray.pix py px 0 := by
  obtain ⟨pre, post, hsplit, hnotpre⟩ := mem_split_first hmem
  have hfinal : finalTop img gray x1 y1 x2 y2 =
      scanTop img gray dc (regionPts x1 y1 x2 y2)
        (initTop (topNum x1 y1 x2 y2)) := by
    unfold finalTop
    rw [hdc]
  have hinit : ∀ cv ∈ initTop (topNum x1 y1 x2 y2),
      cv.val < img.pix py px dc ∧ cv.intensity ≤ gray.pix py px 0 := by
    intro cv hcv
    rw [initTop, List.mem_replicate] at hcv
    rw [hcv.2]
    constructor
    · show (-1 : ℚ) < _
      linarith
    · show (-1 : ℚ) ≤ _
      linarith
  have hpre : ∀ q ∈ pre, img.pix q.2 q.1 dc < img.pix py px dc ∧
      gray.pix q.2 q.1 0 ≤ gray.pix py px 0 := by
    intro q hq
    have hqpts : q ∈ regionPts x1 y1 x2 y2 := by
      rw [hsplit]
      exact List.mem_append_left _ hq
    have hqne : q ≠ (px, py) := by
      intro he
      exact hnotpre (he ▸ hq)
    obtain ⟨h1, h2⟩ := hmax q hqpts hqne
    exact ⟨h1, le_of_lt h2⟩
  have hA := scanTop_phaseA img gray dc (img.pix py px dc) (gray.pix py px 0)
    pre (initTop (topNum x1 y1 x2 y2)) hpre hinit
  have hlenA : (scanTop img gray dc pre
      (initTop (topNum x1 y1 x2 y2))).length = topNum x1 y1 x2 y2 := by
    rw [scanTop_length]
    simp [initTop]
  obtain ⟨cv0, restA, hconsA⟩ : ∃ cv0 restA,
      scanTop img gray dc pre (initTop (topNum x1 y1 x2 y2)) =
        cv0 :: restA := by
    cases hfin : scanTop img gray dc pre (initTop (topNum x1 y1 x2 y2)) with
    | nil =>
        rw [hfin] at hlenA
        simp at hlenA
        omega
    | cons a l => exact ⟨a, l, rfl⟩
  have hstar : scanStep img gray dc
      (scanTop img gray dc pre (initTop (topNum x1 y1 x2 y2))) (px, py) =
      { x := (px : ℤ), y := (py : ℤ), val := img.pix py px dc,
        intensity := gray.pix py px 0 } :: restA := by
    unfold scanStep
    rw [hconsA]
    exact insertTop_cons_pos cv0 restA _ _ _ _
      (Or.inl (hA cv0 (by rw [hconsA]; exact List.mem_cons_self _ _)).1)
  have hpost : ∀ q ∈ post, img.pix q.2 q.1 dc ≤ img.pix py px dc ∧
      (img.pix py px dc = img.pix q.2 q.1 dc →
        gray.pix q.2 q.1 0 ≤ gray.pix py px 0) ∧
      gray.pix q.2 q.1 0 ≤ gray.pix py px 0 := by
    intro q hq
    by_cases hqe : q = (px, py)
    · subst hqe
      exact ⟨le_refl _, fun _ => le_refl _, le_refl _⟩
    · have hqpts : q ∈ regionPts x1 y1 x2 y2 := by
        rw [hsplit]
        exact List.mem_append_right _ (List.mem_cons_of_mem _ hq)
      obtain ⟨h1, h2⟩ := hmax q hqpts hqe
      exact ⟨le_of_lt h1, fun _ => le_of_lt h2, le_of_lt h2⟩
  have hrestA : ∀ cv ∈ restA, cv.intensity ≤ gray.pix py px 0 := by
    intro cv hcv
    exact (hA cv (by rw [hconsA]; exact List.mem_cons_of_mem _ hcv)).2
  obtain ⟨rest2, hB1, hB2⟩ := scanTop_phaseB img gray dc
    { x := (px : ℤ), y := (py : ℤ), val := img.pix py px dc,
      intensity := gray.pix py px 0 } post restA hpost hrestA
  have hsplit2 : finalTop img gray x1 y1 x2 y2 =
      scanTop img gray dc post
        (scanStep img gray dc
          (scanTop img gray dc pre (initTop (topNum x1 y1 x2 y2)))
          (px, py)) := by
    rw [hfinal, hsplit]
    unfold scanTop
    rw [List.foldl_append, List.foldl_cons]
  have hfinal2 : finalTop img gray x1 y1 x2 y2 =
      { x := (px : ℤ), y := (py : ℤ), val := img.pix py px dc,
        intensity := gray.pix py px 0 } :: rest2 := by
    rw [hsplit2, hstar]
    exact hB1
  have hms : maxStep (-1)
      { x := (px : ℤ), y := (py : ℤ), val := img.pix py px dc,
        intensity := gray.pix py px 0 } = gray.pix py px 0 := by
    unfold maxStep
    rw [if_pos (show (-1 : ℚ) < gray.pix py px 0 by linarith)]
  unfold find_light_intensity maxIntensity
  rw [hfinal2, List.foldl_cons, hms]
  exact foldMax_all_le rest2 (gray.pix py px 0) hB2

lemma mem_regionPts (x1 y1 x2 y2 x y : ℕ) :
    (x, y) ∈ regionPts x1 y1 x2 y2 ↔
      x1 ≤ x ∧ x < x2 ∧ y1 ≤ y ∧ y < y2 := by
  unfold regionPts
  rw [List.mem_flatMap]
  constructor
  · rintro ⟨b, hb, hx⟩
    rw [List.mem_map] at hx
    obtain ⟨a, ha, he⟩ := hx
    rw [List.mem_range'_1] at hb ha
    rw [Prod.mk.injEq] at he
    obtain ⟨rfl, rfl⟩ := he
    omega
  · rintro ⟨h1, h2, h3, h4⟩
    refine ⟨y, ?_, ?_⟩
    · rw [List.mem_range'_1]
      omega
    · rw [List.mem_map]
      refine ⟨x, ?_, rfl⟩
      rw [List.mem_range'_1]
      omega

theorem C9_witness :
    1 ≤ topNum 0 0 1000 1 ∧ (0, 0) ∈ regionPts 0 0 1000 1 ∧
      find_light_intensity wImgB wGrayB 0 0 1000 1 = 7 := by
  have h7 : wGrayB.pix 0 0 0 = 7 := by norm_num [wGrayB]
  refine ⟨by norm_num [topNum], ?_, ?_⟩
  · rw [mem_regionPts]
    omega
  · rw [← h7]
    refine C9_unique_brightest wImgB wGrayB 0 0 1000 1 0 0
      (find_dark_channel wImgB 0 0 1000 1) rfl (by norm_num [topNum])
      (by norm_num [wImgB]) (by norm_num [wGrayB])
      (by rw [mem_regionPts]; omega) ?_
    rintro ⟨qx, qy⟩ hq hne
    rw [mem_regionPts] at hq
    have hy : qy = 0 := by omega
    subst hy
    have hx : qx ≠ 0 := by
      intro h0
      subst h0
      exact hne rfl
    constructor
    · show wImgB.pix 0 qx _ < wImgB.pix 0 0 _
      simp only [wImgB, if_neg hx]
      norm_num
    · show wGrayB.pix 0 qx 0 < wGrayB.pix 0 0 0
      simp only [wGrayB, if_neg hx]
      norm_num
